import Mathlib

/-! MyGuardian: the SafetyStateManager event log.

A shallow embedding of `app/src/main/cpp/SafetyStateManager.h` and
`app/src/main/cpp/SafetyStateManager.cpp`, and the sequential properties of
the two member functions `addEvent` and `history`.

Modelling choices.

* `std::string` is `String`; `long` is `Int`.  The code performs no arithmetic
  on a timestamp (it is only stored and copied), so no wrap-around can occur
  and every `long` value is an `Int`.
* `std::vector<SafetyEvent>` is `List SafetyEvent`, oldest element first;
  `push_back` appends at the end; the copy made by `return events_;` (the
  function returns by value) is the list itself.
* `std::mutex` is a flag that is `true` while some call owns the mutex.
  Constructing a `std::lock_guard` acquires it, leaving the scope releases it.
  A call that meets an owned mutex cannot proceed; the functions return
  `none` there.
-/

namespace MyGuardian

/-- The struct `SafetyEvent` of SafetyStateManager.h, lines 6-9. -/
structure SafetyEvent where
  state : String
  timestamp : Int
deriving DecidableEq, Repr

/-- The data members of class `SafetyStateManager` (SafetyStateManager.h, lines 16-18):
`mtx_` is `true` while the mutex is owned, `events_` is the vector. -/
structure SafetyStateManager where
  mtx_ : Bool
  events_ : List SafetyEvent
deriving DecidableEq, Repr

namespace SafetyStateManager

/-- The implicitly defined default constructor: a default-constructed
`std::mutex` is not owned and a default-constructed `std::vector` is empty. -/
def fresh : SafetyStateManager :=
  { mtx_ := false, events_ := [] }

/-- Constructor of `std::lock_guard<std::mutex> lock(mtx_)`: acquires the mutex.
On a mutex that is already owned the call does not proceed. -/
def lock (m : SafetyStateManager) : Option SafetyStateManager :=
  if m.mtx_ then none else some { m with mtx_ := true }

/-- Destructor of the `std::lock_guard` at the end of the scope: releases the mutex. -/
def unlock (m : SafetyStateManager) : SafetyStateManager :=
  { m with mtx_ := false }

/-- `SafetyStateManager::addEvent` (SafetyStateManager.cpp, lines 3-6):
take the lock, `events_.push_back({state, timestamp})`, release the lock. -/
def addEvent (m : SafetyStateManager) (state : String) (timestamp : Int) :
    Option SafetyStateManager :=
  match m.lock with
  | none => none
  | some held =>
    some (unlock { held with events_ := held.events_ ++ [{ state := state, timestamp := timestamp }] })

/-- `SafetyStateManager::history` (SafetyStateManager.cpp, lines 8-11):
take the lock, copy `events_` into the return value, release the lock.
The result pairs the returned vector with the object after the call. -/
def history (m : SafetyStateManager) : Option (List SafetyEvent × SafetyStateManager) :=
  match m.lock with
  | none => none
  | some held => some (held.events_, held.unlock)

/-- A run of `addEvent` calls, issued one after the other in list order. -/
def addEvents (m : SafetyStateManager) : List (String × Int) → Option SafetyStateManager
  | [] => some m
  | p :: rest =>
    match m.addEvent p.1 p.2 with
    | none => none
    | some m1 => addEvents m1 rest

end SafetyStateManager

/-- The event that `addEvent` builds from its two arguments: `{state, timestamp}`. -/
def toEvent (p : String × Int) : SafetyEvent :=
  { state := p.1, timestamp := p.2 }

/-- One call made on the log by its owner. -/
inductive Call where
  | addEvent (state : String) (timestamp : Int)
  | history
deriving DecidableEq, Repr

/-- A single-threaded caller: the log it owns and the vectors that its
`history` calls have returned so far, oldest first.  The returned vectors are
the caller's own objects. -/
structure Caller where
  log : SafetyStateManager
  returned : List (List SafetyEvent)
deriving DecidableEq, Repr

namespace Caller

/-- The caller makes one call.  `addEvent` returns `void`; the vector returned by
`history` is kept by the caller. -/
def call (c : Caller) : Call → Option Caller
  | Call.addEvent state timestamp =>
    match c.log.addEvent state timestamp with
    | none => none
    | some m => some { c with log := m }
  | Call.history =>
    match c.log.history with
    | none => none
    | some r => some { log := r.2, returned := c.returned ++ [r.1] }

/-- The caller makes the calls of a list, one after the other. -/
def run (c : Caller) : List Call → Option Caller
  | [] => some c
  | k :: rest =>
    match c.call k with
    | none => none
    | some c1 => run c1 rest

end Caller

/-! ## Basic facts -/

namespace SafetyStateManager

theorem fresh_unlocked : fresh.mtx_ = false := rfl

theorem addEvent_eq (m : SafetyStateManager) (h : m.mtx_ = false) (s : String) (t : Int) :
    m.addEvent s t = some { mtx_ := false, events_ := m.events_ ++ [toEvent (s, t)] } := by
  simp [addEvent, lock, unlock, h, toEvent]

theorem history_eq (m : SafetyStateManager) (h : m.mtx_ = false) :
    m.history = some (m.events_, m) := by
  cases m with
  | mk mx es =>
    simp only at h
    subst h
    simp [history, lock, unlock]

theorem addEvent_locked (m : SafetyStateManager) (h : m.mtx_ = true) (s : String) (t : Int) :
    m.addEvent s t = none := by
  simp [addEvent, lock, h]

theorem history_locked (m : SafetyStateManager) (h : m.mtx_ = true) :
    m.history = none := by
  simp [history, lock, h]

theorem addEvents_eq (pairs : List (String × Int)) :
    ∀ m : SafetyStateManager, m.mtx_ = false →
      m.addEvents pairs = some { mtx_ := false, events_ := m.events_ ++ pairs.map toEvent } := by
  induction pairs with
  | nil =>
    intro m h
    cases m with
    | mk mx es =>
      simp only at h
      subst h
      simp [addEvents]
  | cons p rest ih =>
    intro m h
    rw [addEvents, addEvent_eq m h]
    simp only
    rw [ih _ rfl]
    simp [toEvent]

theorem addEvent_unlocked (m m1 : SafetyStateManager) (s : String) (t : Int)
    (h : m.addEvent s t = some m1) : m.mtx_ = false ∧ m1.mtx_ = false := by
  cases hm : m.mtx_ with
  | true => rw [addEvent_locked m hm] at h; cases h
  | false =>
    rw [addEvent_eq m hm] at h
    cases h
    exact ⟨rfl, rfl⟩

theorem history_unlocked (m r : SafetyStateManager) (S : List SafetyEvent)
    (h : m.history = some (S, r)) : m.mtx_ = false ∧ S = m.events_ ∧ r = m := by
  cases hm : m.mtx_ with
  | true => rw [history_locked m hm] at h; cases h
  | false =>
    rw [history_eq m hm] at h
    cases h
    exact ⟨rfl, rfl, rfl⟩

end SafetyStateManager

namespace Caller

theorem call_addEvent_eq (c : Caller) (h : c.log.mtx_ = false) (s : String) (t : Int) :
    c.call (Call.addEvent s t) =
      some { log := { mtx_ := false, events_ := c.log.events_ ++ [toEvent (s, t)] },
             returned := c.returned } := by
  simp [call, SafetyStateManager.addEvent_eq c.log h]

theorem call_history_eq (c : Caller) (h : c.log.mtx_ = false) :
    c.call Call.history =
      some { log := c.log, returned := c.returned ++ [c.log.events_] } := by
  simp [call, SafetyStateManager.history_eq c.log h]

theorem run_addEvents_eq (later : List (String × Int)) :
    ∀ c : Caller, c.log.mtx_ = false →
      c.run (later.map (fun p => Call.addEvent p.1 p.2)) =
        some { log := { mtx_ := false, events_ := c.log.events_ ++ later.map toEvent },
               returned := c.returned } := by
  induction later with
  | nil =>
    intro c h
    cases c with
    | mk m rs =>
      cases m with
      | mk mx es =>
        simp only at h
        subst h
        simp [run]
  | cons p rest ih =>
    intro c h
    rw [List.map_cons, run, call_addEvent_eq c h]
    simp only
    rw [ih _ rfl]
    simp [toEvent]

/-- Every call made on a log whose mutex is free returns, leaves the mutex free,
extends the stored vector at its end only, and keeps what the caller holds. -/
theorem call_extends (c : Caller) (h : c.log.mtx_ = false) (k : Call) :
    ∃ c1, c.call k = some c1 ∧ c1.log.mtx_ = false ∧
      c.log.events_ <+: c1.log.events_ ∧ c.returned <+: c1.returned := by
  cases k with
  | addEvent s t =>
    exact ⟨_, call_addEvent_eq c h s t, rfl, List.prefix_append _ _, List.prefix_refl _⟩
  | history =>
    exact ⟨_, call_history_eq c h, h, List.prefix_refl _, List.prefix_append _ _⟩

theorem run_extends (calls : List Call) :
    ∀ c : Caller, c.log.mtx_ = false →
      ∃ c1, c.run calls = some c1 ∧ c1.log.mtx_ = false ∧
        c.log.events_ <+: c1.log.events_ ∧ c.returned <+: c1.returned := by
  induction calls with
  | nil =>
    intro c h
    exact ⟨c, rfl, h, List.prefix_refl _, List.prefix_refl _⟩
  | cons k rest ih =>
    intro c h
    obtain ⟨c1, hc1, hu1, hp1, hr1⟩ := call_extends c h k
    obtain ⟨c2, hc2, hu2, hp2, hr2⟩ := ih c1 hu1
    refine ⟨c2, ?_, hu2, hp1.trans hp2, hr1.trans hr2⟩
    rw [run, hc1]
    exact hc2

end Caller

/-- The event built from a pair determines the pair. -/
theorem toEvent_injective : Function.Injective toEvent := by
  intro p q h
  cases p with
  | mk s t =>
    cases q with
    | mk s1 t1 =>
      simp only [toEvent, SafetyEvent.mk.injEq] at h
      obtain ⟨h1, h2⟩ := h
      subst h1
      subst h2
      rfl

/-- An element below the length of a prefix sits at the same index in the longer list. -/
theorem getElem?_of_prefix {α : Type} {H K : List α} (h : H <+: K) (i : Nat) (hi : i < H.length) :
    K[i]? = H[i]? := by
  obtain ⟨T, rfl⟩ := h
  exact List.getElem?_append_left hi

/-- The single-threaded scenario: a new log reads empty; after ARMED at 1000 it reads
that one event; after TRIGGERED at 1050 it reads both, in that order. -/
theorem scenario_single_thread :
    Caller.run { log := SafetyStateManager.fresh, returned := [] }
      [Call.history, Call.addEvent "ARMED" 1000, Call.history,
       Call.addEvent "TRIGGERED" 1050, Call.history]
    = some
      { log := { mtx_ := false,
                 events_ := [{ state := "ARMED", timestamp := 1000 },
                             { state := "TRIGGERED", timestamp := 1050 }] },
        returned := [[],
                     [{ state := "ARMED", timestamp := 1000 }],
                     [{ state := "ARMED", timestamp := 1000 },
                      { state := "TRIGGERED", timestamp := 1050 }]] } := by
  rfl

/-! ## The claims -/

open SafetyStateManager

/-- C1 (order preservation): n calls of addEvent with the pairs (s1,t1), ..., (sn,tn),
made in that order on a freshly created SafetyStateManager, all return, and the
history call that follows returns exactly the events of those pairs: the same
length, and at every index i the event built from the i-th pair. -/
theorem order_preservation (pairs : List (String × Int)) :
    ∃ m S r, fresh.addEvents pairs = some m ∧ m.history = some (S, r) ∧
      S = pairs.map (fun p => { state := p.1, timestamp := p.2 }) ∧
      S.length = pairs.length ∧
      ∀ i (hi : i < pairs.length),
        S[i]? = some { state := pairs[i].1, timestamp := pairs[i].2 } := by
  refine ⟨_, _, _, addEvents_eq pairs fresh rfl, history_eq _ rfl, ?_, ?_, ?_⟩
  · simp [fresh, toEvent]
  · simp [fresh]
  · intro i hi
    simp [fresh, toEvent, hi]

/-- C2 (append postcondition): on a log whose history is H, addEvent(s, t) returns and
the history is then H followed by the single event (s, t): one entry longer, the new
event last, every earlier index holding what it held before. -/
theorem addEvent_appends (m r : SafetyStateManager) (H : List SafetyEvent)
    (hH : m.history = some (H, r)) (s : String) (t : Int) :
    ∃ m1 S r1, m.addEvent s t = some m1 ∧ m1.history = some (S, r1) ∧
      S = H ++ [{ state := s, timestamp := t }] ∧
      S.length = H.length + 1 ∧
      S.getLast? = some { state := s, timestamp := t } ∧
      ∀ i, i < H.length → S[i]? = H[i]? := by
  obtain ⟨hu, hS, _⟩ := history_unlocked m r H hH
  subst hS
  refine ⟨_, _, _, addEvent_eq m hu s t, history_eq _ rfl, ?_, ?_, ?_, ?_⟩
  · simp [toEvent]
  · simp
  · simp [toEvent]
  · intro i hi
    exact List.getElem?_append_left hi

/-- Witness of C2: the log holding ARMED at 1000 receives TRIGGERED at 1050. -/
theorem addEvent_appends_witness :
    ∃ m1 S r1,
      SafetyStateManager.addEvent { mtx_ := false, events_ := [{ state := "ARMED", timestamp := 1000 }] }
        "TRIGGERED" 1050 = some m1 ∧
      m1.history = some (S, r1) ∧
      S = [{ state := "ARMED", timestamp := 1000 }] ++ [{ state := "TRIGGERED", timestamp := 1050 }] ∧
      S.length = [({ state := "ARMED", timestamp := 1000 } : SafetyEvent)].length + 1 ∧
      S.getLast? = some { state := "TRIGGERED", timestamp := 1050 } ∧
      ∀ i, i < [({ state := "ARMED", timestamp := 1000 } : SafetyEvent)].length →
        S[i]? = [({ state := "ARMED", timestamp := 1000 } : SafetyEvent)][i]? :=
  addEvent_appends { mtx_ := false, events_ := [{ state := "ARMED", timestamp := 1000 }] }
    { mtx_ := false, events_ := [{ state := "ARMED", timestamp := 1000 }] }
    [{ state := "ARMED", timestamp := 1000 }] rfl "TRIGGERED" 1050

/-- C3 (empty initial state): history on a freshly created SafetyStateManager, before
any addEvent, returns the empty sequence (and leaves the object as it was). -/
theorem history_fresh_empty : fresh.history = some ([], fresh) := by
  rfl

/-- C4 (snapshot independence): a caller takes S with history on a log whose mutex is
free and then makes any sequence of addEvent calls.  All calls return; the vector S
the caller holds is the same afterwards, equal to the stored sequence at capture
time; and a new history call returns S followed by exactly the later entries. -/
theorem snapshot_independence (m : SafetyStateManager) (hm : m.mtx_ = false)
    (later : List (String × Int)) :
    ∃ c1 c2 c3 S,
      Caller.call { log := m, returned := [] } Call.history = some c1 ∧
      c1.returned = [S] ∧ S = m.events_ ∧
      c1.run (later.map (fun p => Call.addEvent p.1 p.2)) = some c2 ∧
      c2.returned = [S] ∧
      c2.call Call.history = some c3 ∧
      c3.returned = [S, S ++ later.map (fun p => { state := p.1, timestamp := p.2 })] := by
  refine ⟨_, _, _, m.events_, Caller.call_history_eq _ hm, ?_, rfl,
    Caller.run_addEvents_eq later _ hm, ?_, Caller.call_history_eq _ rfl, ?_⟩
  · simp
  · simp
  · simp [toEvent]

/-- Witness of C4: S is taken on the log holding ARMED at 1000, then TRIGGERED at 1050
and CLEARED at 1020 are added. -/
theorem snapshot_independence_witness :
    ∃ c1 c2 c3 S,
      Caller.call { log := { mtx_ := false, events_ := [{ state := "ARMED", timestamp := 1000 }] },
                    returned := [] } Call.history = some c1 ∧
      c1.returned = [S] ∧ S = [{ state := "ARMED", timestamp := 1000 }] ∧
      c1.run ([("TRIGGERED", (1050 : Int)), ("CLEARED", 1020)].map (fun p => Call.addEvent p.1 p.2))
        = some c2 ∧
      c2.returned = [S] ∧
      c2.call Call.history = some c3 ∧
      c3.returned = [S, S ++ [("TRIGGERED", (1050 : Int)), ("CLEARED", 1020)].map
        (fun p => { state := p.1, timestamp := p.2 })] :=
  snapshot_independence { mtx_ := false, events_ := [{ state := "ARMED", timestamp := 1000 }] } rfl
    [("TRIGGERED", 1050), ("CLEARED", 1020)]

/-- C5 (no validation, no failure): on a log whose mutex is free, addEvent returns for
every label and every timestamp, and the event then last in history carries exactly
the supplied label and exactly the supplied timestamp. -/
theorem addEvent_verbatim (m : SafetyStateManager) (hm : m.mtx_ = false) (s : String) (t : Int) :
    ∃ m1 S r e, m.addEvent s t = some m1 ∧ m1.history = some (S, r) ∧
      S.getLast? = some e ∧ e.state = s ∧ e.timestamp = t := by
  refine ⟨_, _, _, toEvent (s, t), addEvent_eq m hm s t, history_eq _ rfl, ?_, rfl, rfl⟩
  simp

/-- Witness of C5: the empty label with the timestamp -999999 on a fresh log. -/
theorem addEvent_verbatim_witness :
    ∃ m1 S r e, fresh.addEvent "" (-999999) = some m1 ∧ m1.history = some (S, r) ∧
      S.getLast? = some e ∧ e.state = "" ∧ e.timestamp = -999999 :=
  addEvent_verbatim fresh rfl "" (-999999)

/-- C6 (history is a pure read): on a log whose mutex is free, history returns and leaves
the object exactly as it was; a second history call right after returns the same
sequence; and an addEvent made after a history call returns the same object as the
same addEvent made without it. -/
theorem history_pure_read (m : SafetyStateManager) (hm : m.mtx_ = false) :
    ∃ S, m.history = some (S, m) ∧ S = m.events_ ∧
      (m.history.bind fun r => r.2.history) = some (S, m) ∧
      ∀ (s : String) (t : Int),
        (m.addEvent s t).isSome = true ∧
        (m.history.bind fun r => r.2.addEvent s t) = m.addEvent s t := by
  refine ⟨m.events_, history_eq m hm, rfl, ?_, ?_⟩
  · simp [history_eq m hm]
  · intro s t
    simp [history_eq m hm, addEvent_eq m hm]

/-- Witness of C6: the log holding ARMED at 1000. -/
theorem history_pure_read_witness :
    ∃ S,
      SafetyStateManager.history { mtx_ := false, events_ := [{ state := "ARMED", timestamp := 1000 }] }
        = some (S, { mtx_ := false, events_ := [{ state := "ARMED", timestamp := 1000 }] }) ∧
      S = [{ state := "ARMED", timestamp := 1000 }] ∧
      ((SafetyStateManager.history
          { mtx_ := false, events_ := [{ state := "ARMED", timestamp := 1000 }] }).bind
          fun r => r.2.history)
        = some (S, { mtx_ := false, events_ := [{ state := "ARMED", timestamp := 1000 }] }) ∧
      ∀ (s : String) (t : Int),
        (SafetyStateManager.addEvent
          { mtx_ := false, events_ := [{ state := "ARMED", timestamp := 1000 }] } s t).isSome = true ∧
        ((SafetyStateManager.history
            { mtx_ := false, events_ := [{ state := "ARMED", timestamp := 1000 }] }).bind
            fun r => r.2.addEvent s t)
          = SafetyStateManager.addEvent
              { mtx_ := false, events_ := [{ state := "ARMED", timestamp := 1000 }] } s t :=
  history_pure_read { mtx_ := false, events_ := [{ state := "ARMED", timestamp := 1000 }] } rfl

/-- C7 (append-only growth): from a log whose mutex is free, every finite sequence of
addEvent and history calls, in any mix, returns, and the history before the sequence
is a prefix of the history after it: the length does not decrease and every index of
the earlier history holds the same entry afterwards. -/
theorem append_only (c : Caller) (hc : c.log.mtx_ = false) (calls : List Call) :
    ∃ c1 H r K r1, c.run calls = some c1 ∧
      c.log.history = some (H, r) ∧ c1.log.history = some (K, r1) ∧
      H <+: K ∧ H.length ≤ K.length ∧ ∀ i, i < H.length → K[i]? = H[i]? := by
  obtain ⟨c1, hrun, hu1, hpre, _⟩ := Caller.run_extends calls c hc
  exact ⟨c1, _, _, _, _, hrun, history_eq _ hc, history_eq _ hu1, hpre, hpre.length_le,
    fun i hi => getElem?_of_prefix hpre i hi⟩

/-- Witness of C7: the log holding ARMED at 1000 sees history, addEvent, history, addEvent. -/
theorem append_only_witness :
    ∃ c1 H r K r1,
      Caller.run { log := { mtx_ := false, events_ := [{ state := "ARMED", timestamp := 1000 }] },
                   returned := [] }
        [Call.history, Call.addEvent "TRIGGERED" 1050, Call.history, Call.addEvent "" (-5)]
        = some c1 ∧
      SafetyStateManager.history
        { mtx_ := false, events_ := [{ state := "ARMED", timestamp := 1000 }] } = some (H, r) ∧
      c1.log.history = some (K, r1) ∧
      H <+: K ∧ H.length ≤ K.length ∧ ∀ i, i < H.length → K[i]? = H[i]? :=
  append_only { log := { mtx_ := false, events_ := [{ state := "ARMED", timestamp := 1000 }] },
                returned := [] } rfl
    [Call.history, Call.addEvent "TRIGGERED" 1050, Call.history, Call.addEvent "" (-5)]

/-- C10 as stated fails: two addEvent calls with the same pair (ARMED, 1000) on a fresh
log both return, and history then holds that one event at position 0 and at position 1. -/
theorem history_nodup_counterexample :
    ∃ m S r, fresh.addEvents [("ARMED", 1000), ("ARMED", 1000)] = some m ∧
      m.history = some (S, r) ∧
      S[0]? = some { state := "ARMED", timestamp := 1000 } ∧
      S[1]? = some { state := "ARMED", timestamp := 1000 } ∧
      ¬ S.Nodup := by
  refine ⟨_, _, _, addEvents_eq _ fresh rfl, history_eq _ rfl, ?_, ?_, ?_⟩
  · simp [fresh, toEvent]
  · simp [fresh, toEvent]
  · simp [fresh, toEvent]

/-- C10 amended: after any sequence of addEvent calls on a fresh log, duplicate or
non-monotonic values included, history holds one entry per call in insertion order
(entry i is the event of call i), and it holds no event at two different positions
exactly when no pair was supplied twice. -/
theorem history_one_entry_per_call (pairs : List (String × Int)) :
    ∃ m S r, fresh.addEvents pairs = some m ∧ m.history = some (S, r) ∧
      S.length = pairs.length ∧
      (∀ i (hi : i < pairs.length),
        S[i]? = some { state := pairs[i].1, timestamp := pairs[i].2 }) ∧
      (S.Nodup ↔ pairs.Nodup) := by
  refine ⟨_, _, _, addEvents_eq pairs fresh rfl, history_eq _ rfl, ?_, ?_, ?_⟩
  · simp [fresh]
  · intro i hi
    simp [fresh, toEvent, hi]
  · simp only [fresh, List.nil_append]
    exact List.nodup_map_iff toEvent_injective

end MyGuardian
